import Mathlib

/-!
Verification development for the `mgf_2_fragTable` repository.

The Python sources (`mgf_2_fragTable.py` and `app.py`) are shallowly embedded
below.  Python strings are `List Char`, Python floats are `PFloat` (exact
rationals extended with the IEEE specials `nan`, `inf`, `-inf`; the binary
floating-point grid is abstracted to ℚ, so decimal values are exact), header
parameter values are the closed variant type `PVal`, insertion-ordered Python
dicts are association lists, raised exceptions are `Except.error`, and the
`pyteomics` MGF parser (an external library) is abstracted by supplying each
file's parsed spectrum list directly.  `np.lexsort` is modelled by a stable
insertion sort on the lexicographic key (-relative-intensity, m/z) with the
numpy ascending order that places `nan` last.  Python's `round` on a float is
modelled as exact round-half-to-even on the rational value, and `repr` of a
(rounded) float as the exact decimal expansion with trailing zeros removed but
at least one fractional digit; `float(...)` on strings is modelled on the
plain decimal-literal subset of its grammar (no exponent/inf/nan spellings,
which never arise from the formatter).
-/

set_option allowUnsafeReducibility true in
attribute [semireducible] Rat.add Rat.mul Rat.sub Rat.inv Rat.ofScientific

set_option maxHeartbeats 1000000

/-- Python strings are modelled as lists of characters. -/
abbrev Str := List Char

/-- Python's default `str.strip` / `str.split()` whitespace characters
(ASCII subset). -/
def isWs (c : Char) : Bool :=
  c == ' ' || c == '\t' || c == '\n' || c == '\r' || c == '\x0b' || c == '\x0c'

/-- Python `s.strip()`: remove leading and trailing whitespace. -/
def stripStr (cs : Str) : Str :=
  ((cs.dropWhile isWs).reverse.dropWhile isWs).reverse

/-- Python `s.split(sep)` for a one-character separator `sep`:
`"".split(sep) = [""]`, and every occurrence of `sep` starts a new field. -/
def splitOnCh (sep : Char) : Str → List Str
  | [] => [[]]
  | c :: rest =>
    match splitOnCh sep rest with
    | [] => [[]]
    | g :: gs => if c = sep then [] :: g :: gs else (c :: g) :: gs

/-- Python `sep.join(parts)` for a one-character separator. -/
def joinSep (sep : Char) : List Str → Str
  | [] => []
  | [x] => x
  | x :: xs => x ++ sep :: joinSep sep xs

/-- The decimal digit character for `n` (defined for `n ≤ 9`, with 9 as a
catch-all so the function is total). -/
def digitChar (n : Nat) : Char :=
  match n with
  | 0 => '0' | 1 => '1' | 2 => '2' | 3 => '3' | 4 => '4'
  | 5 => '5' | 6 => '6' | 7 => '7' | 8 => '8' | _ => '9'

/-- Numeric value of a decimal digit character. -/
def digitVal (c : Char) : Nat := c.toNat - 48

/-- Decimal digits of `n`, most significant first; fuel-based so that the
kernel can evaluate it (the fuel is always sufficient at `n + 1`). -/
def natDigsF : Nat → Nat → List Char
  | 0, _ => []
  | fuel + 1, n =>
    if n < 10 then [digitChar n]
    else natDigsF fuel (n / 10) ++ [digitChar (n % 10)]

/-- Decimal digit string of a natural number (`0` renders as `"0"`). -/
def natDigs (n : Nat) : List Char := natDigsF (n + 1) n

/-- Value of a decimal digit string (inverse of `natDigs`). -/
def digsToNat (l : List Char) : Nat :=
  l.foldl (fun a c => 10 * a + digitVal c) 0

/-- Left-pad a digit string with `'0'` to length `k`. -/
def padLeft0 (k : Nat) (l : List Char) : List Char :=
  List.replicate (k - l.length) '0' ++ l

/-- Drop trailing decimal zeros of the scaled integer `m` (representing
`m / 10 ^ d`), keeping at least one fractional digit.  This models the fact
that Python's `repr` of a float prints no trailing zeros but always at least
one digit after the point. -/
def stripZeros : ℤ → Nat → ℤ × Nat
  | m, 0 => (m, 0)
  | m, 1 => (m, 1)
  | m, (d + 2) => if m % 10 = 0 then stripZeros (m / 10) (d + 1) else (m, d + 2)

/-- Python `repr` of the float value `m / 10 ^ d` (exact in the rational
abstraction): optional sign, integer part, `'.'`, then the fractional digits
with trailing zeros removed but at least one digit kept. -/
def floatRepr (m : ℤ) (d : Nat) : Str :=
  let p := stripZeros m d
  let m1 := p.1
  let d1 := p.2
  if d1 = 0 then
    (if m1 < 0 then '-' :: natDigs m1.natAbs else natDigs m1.natAbs) ++ ['.', '0']
  else
    let a := m1.natAbs
    (if m1 < 0 then ['-'] else []) ++
      natDigs (a / 10 ^ d1) ++ '.' :: padLeft0 d1 (natDigs (a % 10 ^ d1))

/-- Parser for an unsigned Python decimal float literal:
`digits`, `digits.digits`, `.digits` or `digits.` (at least one digit). -/
def parseUnsigned (cs : Str) : Option ℚ :=
  let ds := cs.takeWhile Char.isDigit
  let rest := cs.dropWhile Char.isDigit
  if rest.isEmpty then
    if ds.isEmpty then none else some ((digsToNat ds : ℚ))
  else if rest.head? = some '.' then
    let rest2 := rest.tail
    let fs := rest2.takeWhile Char.isDigit
    let rest3 := rest2.dropWhile Char.isDigit
    if rest3.isEmpty ∧ (ds.isEmpty = false ∨ fs.isEmpty = false) then
      some ((digsToNat ds : ℚ) + (digsToNat fs : ℚ) / 10 ^ fs.length)
    else none
  else none

/-- Python `float(s)` on a string: strip whitespace, optional sign, then a
decimal literal (the subset of the grammar exercised by this program). -/
def pyFloatOfString (cs : Str) : Option ℚ :=
  match stripStr cs with
  | [] => none
  | c :: r =>
    if c = '-' then (parseUnsigned r).map (fun q => -q)
    else if c = '+' then parseUnsigned r
    else parseUnsigned (c :: r)

/-- Python float values: exact rationals extended with the IEEE special
values.  (The finite binary grid is abstracted to ℚ.) -/
inductive PFloat where
  | nan : PFloat
  | inf : PFloat
  | ninf : PFloat
  | fin : ℚ → PFloat
deriving DecidableEq

/-- `np.isfinite`. -/
def PFloat.isFinite : PFloat → Bool
  | .fin _ => true
  | _ => false

/-- `np.maximum` on two values: `nan` propagates, otherwise the IEEE maximum. -/
def pfMax : PFloat → PFloat → PFloat
  | .nan, _ => .nan
  | _, .nan => .nan
  | .inf, _ => .inf
  | _, .inf => .inf
  | .ninf, b => b
  | a, .ninf => a
  | .fin a, .fin b => .fin (max a b)

/-- `arr.max()` of an intensity list, reduced with `np.maximum`; the guard in
`select_fragments` ensures it is only consulted for non-empty lists, for which
the `-inf` seed is the identity. -/
def npMax (l : List PFloat) : PFloat := l.foldl pfMax .ninf

/-- IEEE division (signed zero subtleties ignored: ℚ has a single zero, which
behaves as `+0`). -/
def PFloat.div : PFloat → PFloat → PFloat
  | .nan, _ => .nan
  | _, .nan => .nan
  | .inf, .inf => .nan
  | .inf, .ninf => .nan
  | .ninf, .inf => .nan
  | .ninf, .ninf => .nan
  | .inf, .fin b => if b < 0 then .ninf else .inf
  | .ninf, .fin b => if b < 0 then .inf else .ninf
  | .fin _, .inf => .fin 0
  | .fin _, .ninf => .fin 0
  | .fin a, .fin b =>
    if b = 0 then (if a = 0 then .nan else if 0 < a then .inf else .ninf)
    else .fin (a / b)

/-- IEEE multiplication. -/
def PFloat.mul : PFloat → PFloat → PFloat
  | .nan, _ => .nan
  | _, .nan => .nan
  | .inf, .inf => .inf
  | .inf, .ninf => .ninf
  | .ninf, .inf => .ninf
  | .ninf, .ninf => .inf
  | .inf, .fin b => if b = 0 then .nan else if 0 < b then .inf else .ninf
  | .fin a, .inf => if a = 0 then .nan else if 0 < a then .inf else .ninf
  | .ninf, .fin b => if b = 0 then .nan else if 0 < b then .ninf else .inf
  | .fin a, .ninf => if a = 0 then .nan else if 0 < a then .ninf else .inf
  | .fin a, .fin b => .fin (a * b)

/-- IEEE `>=` against a finite threshold: false for `nan`, true for `inf`. -/
def PFloat.geQ : PFloat → ℚ → Bool
  | .nan, _ => false
  | .inf, _ => true
  | .ninf, _ => false
  | .fin a, q => q ≤ a

/-- IEEE negation. -/
def PFloat.neg : PFloat → PFloat
  | .nan => .nan
  | .inf => .ninf
  | .ninf => .inf
  | .fin a => .fin (-a)

/-- Round half to even of a rational (Python `round` restricted to exact
decimal inputs, which is all the rational abstraction produces). -/
def rhe (q : ℚ) : ℤ :=
  if q - Rat.floor q < 1 / 2 then Rat.floor q
  else if 1 / 2 < q - Rat.floor q then Rat.floor q + 1
  else if 2 ∣ Rat.floor q then Rat.floor q else Rat.floor q + 1

/-- Python `round(q, d)` in the rational abstraction. -/
def pyRound (q : ℚ) (d : Nat) : ℚ := rhe (q * 10 ^ d) / 10 ^ d

/-- Python `repr(round(x, d))`: format of the rounded float (the `nan` / `inf`
spellings match Python's `str`). -/
def fmtRound (x : PFloat) (d : Nat) : Str :=
  match x with
  | .nan => "nan".data
  | .inf => "inf".data
  | .ninf => "-inf".data
  | .fin q => floatRepr (rhe (q * 10 ^ d)) d

/-- Values of MGF header parameters as handed over by `pyteomics`: strings,
numbers, or sequences (Python `list` and `tuple` both answer the
`isinstance(v, (list, tuple))` checks, so they are merged into `seq`). -/
inductive PVal where
  | str : Str → PVal
  | num : PFloat → PVal
  | seq : List PVal → PVal

/-- A spectrum's header mapping: a Python dict in insertion order with unique
keys, modelled as an association list. -/
abbrev Params := List (Str × PVal)

/-- Python `params[k]` / `k in params` (association-list lookup; keys are
unique, so the first binding is the binding). -/
def lookupP (params : Params) (k : Str) : Option PVal :=
  match params with
  | [] => none
  | (k1, v) :: rest => if k1 = k then some v else lookupP rest k

/-- Python `k in params`. -/
def containsKey (params : Params) (k : Str) : Bool := (lookupP params k).isSome

/-- Source `_first_param` (mgf_2_fragTable.py): return the value of the first
key of `keys` present in `params`; a sequence value yields its first element,
an empty sequence yields `None` — with no fallthrough to later keys. -/
def _first_param (params : Params) (keys : List Str) : Option PVal :=
  match keys with
  | [] => none
  | k :: ks =>
    match lookupP params k with
    | some v =>
      match v with
      | .seq vs => vs.head?
      | _ => some v
    | none => _first_param params ks

/-- Python `repr` of a float value used by `str()`: finite values are printed
via their decimal expansion to 17 places with trailing zeros stripped
(Python's shortest-round-trip repr, exact for the short decimals this program
manipulates). -/
def pfRepr (x : PFloat) : Str :=
  match x with
  | .nan => "nan".data
  | .inf => "inf".data
  | .ninf => "-inf".data
  | .fin q => floatRepr (rhe (q * 10 ^ 17)) 17

/-- Python `str()` of an element inside a sequence repr; nested sequences are
abbreviated (header parameters never contain them). -/
def pyReprAtom (v : PVal) : Str :=
  match v with
  | .str s => s
  | .num x => pfRepr x
  | .seq _ => "[...]".data

/-- Python `str(v)` for a header value. -/
def pyStr (v : PVal) : Str :=
  match v with
  | .str s => s
  | .num x => pfRepr x
  | .seq vs => '[' :: (List.intercalate ", ".data (vs.map pyReprAtom)) ++ [']']

/-- Leftmost maximal run of decimal digits (the match of `re.search` with the
pattern of one-or-more digits), or `none` when the string has no digit. -/
def firstDigitRun : Str → Option Str
  | [] => none
  | c :: rest =>
    if c.isDigit then some (c :: rest.takeWhile Char.isDigit)
    else firstDigitRun rest

/-- Source `extract_scans_fields`: the raw scan value via `_first_param` over
the literal key priority list, and the parsed scan number as the integer value
of the first digit run in `str(value).strip()` (the surrounding `int(...)`
try/except never fails on a digit run). -/
def scanKeys : List Str :=
  ["SCANS", "scans", "scan", "SCAN", "scan_number",
   "SCAN_NUMBER", "FEATURE_ID", "feature_id"].map String.data

/-- Source `extract_scans_fields` (mgf_2_fragTable.py). -/
def extract_scans_fields (params : Params) : Option PVal × Option ℤ :=
  match _first_param params scanKeys with
  | none => (none, none)
  | some v =>
    match firstDigitRun (stripStr (pyStr v)) with
    | none => (some v, none)
    | some ds => (some v, some ((digsToNat ds : ℤ)))

/-- Python `s.split()` with no argument: split on whitespace runs, dropping
empty fields; fuel-based so the kernel can evaluate it. -/
def splitWsF : Nat → Str → List Str
  | 0, _ => []
  | fuel + 1, cs =>
    match cs.dropWhile isWs with
    | [] => []
    | c :: rest =>
      (c :: rest.takeWhile (fun x => !isWs x)) ::
        splitWsF fuel (rest.dropWhile (fun x => !isWs x))

/-- Python `s.split()` with no argument. -/
def splitWs (cs : Str) : List Str := splitWsF (cs.length + 1) cs

/-- Python `float(x)` on a scalar header value (a sequence raises). -/
def pyFloatScalar : PVal → Option PFloat
  | .num x => some x
  | .str s => (pyFloatOfString s).map PFloat.fin
  | .seq _ => none

/-- The per-key value coercion shared by both precursor lookups in
`get_precursor_mz`: a sequence yields `float(v[0])` (an empty sequence
raises, hence `none`); a string is comma-to-space normalised, split on
whitespace, and its first token is converted; a bare number converts
directly.  Any failure means the candidate is skipped. -/
def convParam (v : PVal) : Option PFloat :=
  match v with
  | .seq [] => none
  | .seq (v0 :: _) => pyFloatScalar v0
  | .str s =>
    match splitWs (s.map (fun c => if c = ',' then ' ' else c)) with
    | [] => none
    | t :: _ => (pyFloatOfString t).map PFloat.fin
  | .num x => some x

/-- First pass of source `get_precursor_mz`: iterate the header keys in
insertion order and try to convert the value of every key whose lowercase
form is `pepmass`, returning the first successful conversion. -/
def pepmassLoop : Params → Option PFloat
  | [] => none
  | (k, v) :: rest =>
    if k.map Char.toLower = "pepmass".data then
      match convParam v with
      | some r => some r
      | none => pepmassLoop rest
    else pepmassLoop rest

/-- The case-sensitive fallback key spellings of `get_precursor_mz`. -/
def altKeys : List Str :=
  ["precursor_mz", "precursorMz", "parentmass", "ParentMass",
   "ms2precursor", "MS2Precursor"].map String.data

/-- Second pass of source `get_precursor_mz`: try each fallback key in order;
a conversion failure falls through to the next key. -/
def altLoop (params : Params) : List Str → Option PFloat
  | [] => none
  | k :: ks =>
    match lookupP params k with
    | some v =>
      match convParam v with
      | some r => some r
      | none => altLoop params ks
    | none => altLoop params ks

/-- Source `get_precursor_mz` (mgf_2_fragTable.py). -/
def get_precursor_mz (params : Params) : Option PFloat :=
  match pepmassLoop params with
  | some r => some r
  | none => altLoop params altKeys


/-- Rank of a float in numpy's ascending sort order: `-inf`, then finite
values, then `inf`, with `nan` last. -/
def pfRank : PFloat → Nat
  | .ninf => 0
  | .fin _ => 1
  | .inf => 2
  | .nan => 3

/-- Finite value of a float (`0` for the special values; only consulted when
the rank ties, i.e. between two finite values). -/
def pfVal : PFloat → ℚ
  | .fin q => q
  | _ => 0

/-- numpy's ascending sort order on floats (`nan` sorts last). -/
def PfOrd (a b : PFloat) : Prop :=
  pfRank a < pfRank b ∨ (pfRank a = pfRank b ∧ pfVal a ≤ pfVal b)

instance : DecidableRel PfOrd := fun a b => by
  unfold PfOrd
  exact inferInstance

/-- The key order of `np.lexsort((kept[:, 0], -kept[:, 1]))` on a
(m/z, relative-intensity) pair: primary key negated relative intensity
ascending — i.e. relative intensity descending — with ties broken by m/z
ascending in numpy's order. -/
def LexLeP (p q : PFloat × PFloat) : Prop :=
  (PfOrd p.2.neg q.2.neg ∧ ¬ PfOrd q.2.neg p.2.neg) ∨
    (p.2.neg = q.2.neg ∧ PfOrd p.1 q.1)

instance : DecidableRel LexLeP := fun p q => by
  unfold LexLeP
  exact inferInstance

/-- The relative-intensity array `rel = (arr[:, 1] / base) * 100.0`. -/
def relArray (intens : List PFloat) (base : PFloat) : List PFloat :=
  intens.map (fun i => (i.div base).mul (.fin 100))

/-- The retained (m/z, relative-intensity) pairs: the rows of
`np.column_stack([arr[keep, 0], rel[keep]])` with `keep = rel >= min_rel_pct`
(inclusive boundary). -/
def keptPairs (mzs intens : List PFloat) (base : PFloat) (minRel : ℚ) :
    List (PFloat × PFloat) :=
  (mzs.zip (relArray intens base)).filter (fun p => p.2.geQ minRel)

/-- The retained pairs sorted by `np.lexsort((kept[:, 0], -kept[:, 1]))`,
modelled as a stable insertion sort by the lexicographic key. -/
def sortedKept (mzs intens : List PFloat) (b minRel : ℚ) :
    List (PFloat × PFloat) :=
  List.insertionSort LexLeP (keptPairs mzs intens (.fin b) minRel)

/-- One formatted fragment entry `"{round(mz, mz_decimals)}:{round(rel, rel_decimals)}"`. -/
def fragToken (p : PFloat × PFloat) (mzDec relDec : Nat) : Str :=
  fmtRound p.1 mzDec ++ ':' :: fmtRound p.2 relDec

/-- Source `select_fragments` (mgf_2_fragTable.py): guard degenerate inputs,
compute relative intensities against the maximum intensity, keep the peaks at
or above `min_rel_pct`, sort by relative intensity descending with m/z
ascending tie-break, truncate to `top_n`, format, and join with `';'`.
The source's separate `np.isfinite(base)` test and `base <= 0` test appear
here as the `match` (non-`fin` values are not finite) plus the `b ≤ 0` test;
the redundant `arr.size == 0` re-check of the length guard is subsumed by the
first guard.  `top_n` is a `Nat` (the app passes `1 ≤ top_n ≤ 50`). -/
def select_fragments (mzs intens : List PFloat) (topN : Nat) (minRel : ℚ)
    (mzDec : Nat := 4) (relDec : Nat := 1) : Str :=
  if mzs.length = 0 ∨ intens.length = 0 ∨ mzs.length ≠ intens.length then []
  else
    match npMax intens with
    | .fin b =>
      if b ≤ 0 then []
      else if keptPairs mzs intens (.fin b) minRel = [] then []
      else
        joinSep ';'
          (((sortedKept mzs intens b minRel).take topN).map
            (fun p => fragToken p mzDec relDec))
    | _ => []

/-- One token's contribution in `_parse_frag_string` (app.py): strip, skip
blank tokens and tokens without `':'`, split at the first `':'`, then
`float()` both halves (the `'%'` characters being removed from the second) —
the m/z value is appended first, so a failing relative-intensity conversion
still leaves the m/z appended. -/
def tokenMzRel (t0 : Str) : Option ℚ × Option ℚ :=
  let t := stripStr t0
  if t.isEmpty then (none, none)
  else if !(t.contains ':') then (none, none)
  else
    let mzT := t.takeWhile (fun c => c != ':')
    let relT := (t.dropWhile (fun c => c != ':')).tail
    match pyFloatOfString mzT with
    | none => (none, none)
    | some a => (some a, pyFloatOfString (relT.filter (fun c => c != '%')))

/-- Source `_parse_frag_string` (app.py): split the fragment string on `';'`
and accumulate the parsed m/z and relative-intensity values. -/
def _parse_frag_string (s : Str) : List ℚ × List ℚ :=
  if s.isEmpty then ([], [])
  else
    (splitOnCh ';' s).foldl
      (fun acc part =>
        match tokenMzRel part with
        | (some a, some b) => (acc.1 ++ [a], acc.2 ++ [b])
        | (some a, none) => (acc.1 ++ [a], acc.2)
        | _ => acc)
      ([], [])

/-- Number of `';'`-separated tokens of a fragment string (0 for the empty
string), matching the row-assembly fragment count. -/
def tokenCount (s : Str) : Nat :=
  if s.isEmpty then 0 else (splitOnCh ';' s).length

/-- One parsed spectrum as produced by the Loader: header parameters plus the
two parallel peak arrays (already coerced to float). -/
structure Spectrum where
  params : Params
  mz : List PFloat
  intensity : List PFloat

/-- One output record of `spectra_to_dataframe`. -/
structure SummaryRow where
  batch : Str
  scans : Option PVal
  scan_number : Option ℤ
  precursor_mass : Option PFloat
  fragments : Str
  n_fragments : Nat

/-- The row built for one spectrum in the loop body of
`spectra_to_dataframe`; `n_fragments` is `frag_str.count(";") + 1` when the
fragment string is non-empty and `0` otherwise. -/
def mkRow (batch : Str) (topN : Nat) (minRel : ℚ) (spec : Spectrum) :
    SummaryRow :=
  let frag := select_fragments spec.mz spec.intensity topN minRel
  { batch := batch
    scans := (extract_scans_fields spec.params).1
    scan_number := (extract_scans_fields spec.params).2
    precursor_mass := get_precursor_mz spec.params
    fragments := frag
    n_fragments := if frag.isEmpty then 0 else frag.count ';' + 1 }

/-- A pandas DataFrame of summary rows: the ordered column labels plus the
row records.  `pd.DataFrame(rows)` derives the columns from the dict key
order of the rows (and an empty row list yields no columns at all). -/
structure DF where
  cols : List Str
  rows : List SummaryRow

/-- The dict key order used when each row is built in
`spectra_to_dataframe` — note `fragments` precedes `n_fragments` here. -/
def dfCols : List Str :=
  ["batch", "scans", "scan_number", "precursor_mass",
   "fragments", "n_fragments"].map String.data

/-- Source `spectra_to_dataframe` (mgf_2_fragTable.py): the nested loop over
batches (in mapping order) and spectra (in list order), appending one row per
spectrum. -/
def spectra_to_dataframe (m : List (Str × List Spectrum)) (topN : Nat)
    (minRel : ℚ) : DF :=
  let rows :=
    m.foldl
      (fun acc bs =>
        bs.2.foldl (fun acc2 spec => acc2 ++ [mkRow bs.1 topN minRel spec]) acc)
      []
  { cols := if rows.isEmpty then [] else dfCols, rows := rows }

/-- Python `fn.lower().endswith(".mgf")`. -/
def isMgfName (fn : Str) : Bool :=
  List.isSuffixOf ".mgf".data (fn.map Char.toLower)

/-- Python `os.path.splitext(fn)[0]` for a bare file name: cut at the last
dot, except that a dot with only dots before it is not an extension
separator. -/
def splitextStem (fn : Str) : Str :=
  let r := fn.reverse
  let ext := r.takeWhile (fun c => c != '.')
  if ext.length = r.length then fn
  else
    let stemRev := r.drop (ext.length + 1)
    if stemRev.all (fun c => c == '.') then fn else stemRev.reverse

/-- Python dict assignment `d[k] = v`: replace the value at an existing key
(keeping its position) or append a new binding. -/
def dictSet (m : List (Str × List Spectrum)) (k : Str) (v : List Spectrum) :
    List (Str × List Spectrum) :=
  match m with
  | [] => [(k, v)]
  | (k1, v1) :: rest =>
    if k1 = k then (k, v) :: rest else (k1, v1) :: dictSet rest k v

/-- The error message of the `FileNotFoundError` raised by `os.listdir` on a
non-existent directory path. -/
def fnfMsg : Str := "FileNotFoundError".data

/-- Source `load_mgf_spectra` (mgf_2_fragTable.py).  The directory is
modelled as `none` (the path does not exist — `os.listdir` raises, which the
function does not catch) or `some entries` (the listing, each entry carrying
the spectra that `pyteomics.mgf.read` would yield for that file; the
element-wise `float` coercion of the peak arrays is the identity here because
the arrays already hold floats).  Files whose lowercased name does not end in
`.mgf` are skipped; each kept file's spectrum list is assigned to the
stem-named batch key, a later file overwriting an earlier one with the same
stem. -/
def load_mgf_spectra (listing : Option (List (Str × List Spectrum))) :
    Except Str (List (Str × List Spectrum)) :=
  match listing with
  | none => .error fnfMsg
  | some entries =>
    .ok (entries.foldl
      (fun acc e => if isMgfName e.1 then dictSet acc (splitextStem e.1) e.2 else acc)
      [])

/-- The reordered column list of `build_table_from_dir` (app.py) — here
`n_fragments` precedes `fragments`. -/
def appCols : List Str :=
  ["batch", "scans", "scan_number", "precursor_mass",
   "n_fragments", "fragments"].map String.data

/-- Source `build_table_from_dir` (app.py): load the spectra, build the
DataFrame, and reorder the columns to `appCols` followed by any remaining
columns. -/
def build_table_from_dir (listing : Option (List (Str × List Spectrum)))
    (topN : Nat) (minRel : ℚ) : Except Str DF :=
  match load_mgf_spectra listing with
  | .error e => .error e
  | .ok m =>
    let df := spectra_to_dataframe m topN minRel
    let existing := appCols.filter (fun c => df.cols.contains c)
    let rest := df.cols.filter (fun c => !existing.contains c)
    .ok { cols := existing ++ rest, rows := df.rows }

/-- Spec wording of the raw scan lookup: the value of the first key present
in the literal priority list, taking element 0 when the value is a sequence
(with an empty sequence yielding nothing). -/
def scanRawSpec (params : Params) : Option PVal :=
  match scanKeys.find? (containsKey params) with
  | none => none
  | some k =>
    match lookupP params k with
    | some (.seq vs) => vs.head?
    | some v => some v
    | none => none

/-- Spec wording of scan extraction: the raw value as above, and the scan
number as the integer value of the first run of decimal digits anywhere in
the string form of the raw value, absent when no digits exist or the value
is absent. -/
def extract_scans_fields_spec (params : Params) : Option PVal × Option ℤ :=
  match scanRawSpec params with
  | none => (none, none)
  | some v =>
    (some v,
      (firstDigitRun (stripStr (pyStr v))).map (fun ds => ((digsToNat ds : ℤ))))

/-- Spec wording of the precursor candidate values: all values of keys whose
case-insensitive spelling is `pepmass`, in header order, followed by the
values of the alternate spellings present, in the fixed alternate order. -/
def precursorCandidates (params : Params) : List PVal :=
  (params.filter (fun kv => kv.1.map Char.toLower = "pepmass".data)).map Prod.snd
    ++ altKeys.filterMap (lookupP params)

/-- Spec wording of precursor extraction: the first candidate value that
converts; absent (never zero) when no candidate converts. -/
def get_precursor_mz_spec (params : Params) : Option PFloat :=
  List.findSome? convParam (precursorCandidates params)

/-- Spec wording of the fragment ordering: relative intensity descending,
ties broken by mass-to-charge ascending (in numpy's ascending float order). -/
def RelDescMzAsc (x y : PFloat × PFloat) : Prop :=
  ∃ qx qy, x.2 = PFloat.fin qx ∧ y.2 = PFloat.fin qy ∧
    (qy < qx ∨ (qx = qy ∧ PfOrd x.1 y.1))

/-- Spec wording of an empty-or-degenerate spectrum: zero peaks, mismatched
array lengths, or a maximum intensity that is non-finite or non-positive. -/
def DegenerateSpectrum (spec : Spectrum) : Prop :=
  spec.mz = [] ∨ spec.intensity = [] ∨
    spec.mz.length ≠ spec.intensity.length ∨
    (npMax spec.intensity).isFinite = false ∨
    (∃ b, npMax spec.intensity = .fin b ∧ b ≤ 0)

theorem PfOrd_refl (a : PFloat) : PfOrd a a := Or.inr ⟨rfl, le_refl _⟩

theorem PfOrd_total (a b : PFloat) : PfOrd a b ∨ PfOrd b a := by
  rcases Nat.lt_trichotomy (pfRank a) (pfRank b) with h | h | h
  · exact Or.inl (Or.inl h)
  · rcases le_total (pfVal a) (pfVal b) with h2 | h2
    · exact Or.inl (Or.inr ⟨h, h2⟩)
    · exact Or.inr (Or.inr ⟨h.symm, h2⟩)
  · exact Or.inr (Or.inl h)

theorem PfOrd_trans {a b c : PFloat} (h1 : PfOrd a b) (h2 : PfOrd b c) :
    PfOrd a c := by
  rcases h1 with h1 | ⟨e1, v1⟩ <;> rcases h2 with h2 | ⟨e2, v2⟩
  · exact Or.inl (h1.trans h2)
  · exact Or.inl (e2 ▸ h1)
  · exact Or.inl (e1 ▸ h2)
  · exact Or.inr ⟨e1.trans e2, v1.trans v2⟩

theorem PfOrd_antisymm {a b : PFloat} (h1 : PfOrd a b) (h2 : PfOrd b a) :
    a = b := by
  rcases h1 with h1 | ⟨e1, v1⟩
  · rcases h2 with h2 | ⟨e2, v2⟩ <;> omega
  · rcases h2 with h2 | ⟨e2, v2⟩
    · omega
    · have hv := le_antisymm v1 v2
      cases a <;> cases b <;> simp_all [pfRank, pfVal]

theorem LexLeP_trans {p q r : PFloat × PFloat} (h1 : LexLeP p q)
    (h2 : LexLeP q r) : LexLeP p r := by
  rcases h1 with ⟨hs1, hn1⟩ | ⟨he1, hm1⟩
  · rcases h2 with ⟨hs2, hn2⟩ | ⟨he2, hm2⟩
    · refine Or.inl ⟨PfOrd_trans hs1 hs2, fun hc => hn2 (PfOrd_trans hc hs1)⟩
    · exact Or.inl ⟨he2 ▸ hs1, fun hc => hn1 (he2 ▸ hc)⟩
  · rcases h2 with ⟨hs2, hn2⟩ | ⟨he2, hm2⟩
    · exact Or.inl ⟨he1 ▸ hs2, fun hc => hn2 (he1 ▸ hc)⟩
    · exact Or.inr ⟨he1.trans he2, PfOrd_trans hm1 hm2⟩

theorem LexLeP_total (p q : PFloat × PFloat) : LexLeP p q ∨ LexLeP q p := by
  by_cases h1 : PfOrd p.2.neg q.2.neg
  · by_cases h2 : PfOrd q.2.neg p.2.neg
    · have he := PfOrd_antisymm h1 h2
      rcases PfOrd_total p.1 q.1 with hm | hm
      · exact Or.inl (Or.inr ⟨he, hm⟩)
      · exact Or.inr (Or.inr ⟨he.symm, hm⟩)
    · exact Or.inl (Or.inl ⟨h1, h2⟩)
  · rcases PfOrd_total p.2.neg q.2.neg with h | h
    · exact absurd h h1
    · exact Or.inr (Or.inl ⟨h, h1⟩)

instance : IsTrans (PFloat × PFloat) LexLeP := ⟨fun _ _ _ => LexLeP_trans⟩

instance : IsTotal (PFloat × PFloat) LexLeP := ⟨LexLeP_total⟩

theorem pfMax_eq_ninf {a x : PFloat} (h : pfMax a x = .ninf) :
    a = .ninf ∧ x = .ninf := by
  cases a <;> cases x <;> simp_all [pfMax]

theorem pfMax_eq_fin {a x : PFloat} {q : ℚ} (h : pfMax a x = .fin q) :
    (a = .ninf ∨ ∃ qa, a = .fin qa ∧ qa ≤ q) ∧
      (x = .ninf ∨ ∃ qx, x = .fin qx ∧ qx ≤ q) := by
  cases a <;> cases x <;> simp_all [pfMax]
  exact ⟨h ▸ le_max_left _ _, h ▸ le_max_right _ _⟩

theorem foldl_pfMax_fin :
    ∀ (l : List PFloat) (acc : PFloat) (b : ℚ), l.foldl pfMax acc = .fin b →
      (acc = .ninf ∨ ∃ q, acc = .fin q ∧ q ≤ b) ∧
        ∀ x ∈ l, x = .ninf ∨ ∃ q, x = .fin q ∧ q ≤ b := by
  intro l
  induction l with
  | nil =>
    intro acc b h
    simp only [List.foldl_nil] at h
    exact ⟨Or.inr ⟨b, h, le_refl _⟩, by simp⟩
  | cons x rest ih =>
    intro acc b h
    rw [List.foldl_cons] at h
    obtain ⟨hhd, htl⟩ := ih (pfMax acc x) b h
    have hax : (acc = .ninf ∨ ∃ q, acc = .fin q ∧ q ≤ b) ∧
        (x = .ninf ∨ ∃ q, x = .fin q ∧ q ≤ b) := by
      rcases hhd with hn | ⟨q, hq, hqb⟩
      · obtain ⟨h1, h2⟩ := pfMax_eq_ninf hn
        exact ⟨Or.inl h1, Or.inl h2⟩
      · obtain ⟨h1, h2⟩ := pfMax_eq_fin hq
        constructor
        · rcases h1 with h1 | ⟨qa, hqa, hle⟩
          · exact Or.inl h1
          · exact Or.inr ⟨qa, hqa, hle.trans hqb⟩
        · rcases h2 with h2 | ⟨qx, hqx, hle⟩
          · exact Or.inl h2
          · exact Or.inr ⟨qx, hqx, hle.trans hqb⟩
    refine ⟨hax.1, ?_⟩
    intro y hy
    rcases List.mem_cons.mp hy with rfl | hy
    · exact hax.2
    · exact htl y hy

theorem npMax_fin_bound {l : List PFloat} {b : ℚ} (h : npMax l = .fin b) :
    ∀ x ∈ l, x = .ninf ∨ ∃ q, x = .fin q ∧ q ≤ b :=
  (foldl_pfMax_fin l .ninf b h).2

theorem isFinite_iff {x : PFloat} : x.isFinite = true ↔ ∃ q, x = .fin q := by
  cases x <;> simp [PFloat.isFinite]

theorem foldl_pfMax_finite :
    ∀ (l : List PFloat) (qa : ℚ), (∀ x ∈ l, x.isFinite = true) →
      ∃ b, l.foldl pfMax (.fin qa) = .fin b := by
  intro l
  induction l with
  | nil => intro qa _; exact ⟨qa, rfl⟩
  | cons x rest ih =>
    intro qa hfin
    obtain ⟨qx, rfl⟩ := isFinite_iff.mp (hfin x (by simp))
    rw [List.foldl_cons]
    have : pfMax (.fin qa) (.fin qx) = .fin (max qa qx) := rfl
    rw [this]
    exact ih (max qa qx) (fun y hy => hfin y (by simp [hy]))

theorem npMax_fin_of_all_finite {l : List PFloat}
    (hfin : ∀ x ∈ l, x.isFinite = true) (hne : l ≠ []) :
    ∃ b, npMax l = .fin b := by
  cases l with
  | nil => exact absurd rfl hne
  | cons x rest =>
    obtain ⟨qx, rfl⟩ := isFinite_iff.mp (hfin x (by simp))
    unfold npMax
    rw [List.foldl_cons]
    have : pfMax .ninf (.fin qx) = .fin qx := rfl
    rw [this]
    exact foldl_pfMax_finite rest qx (fun y hy => hfin y (by simp [hy]))

theorem geQ_fin_iff {r minRel : ℚ} :
    PFloat.geQ (.fin r) minRel = true ↔ minRel ≤ r := by
  simp [PFloat.geQ]

theorem rel_of_ninf {b : ℚ} (hb : 0 < b) :
    (PFloat.ninf.div (.fin b)).mul (.fin 100) = .ninf := by
  have h1 : PFloat.ninf.div (.fin b) = .ninf := by
    simp [PFloat.div, not_lt.mpr hb.le]
  rw [h1]
  norm_num [PFloat.mul]

theorem rel_of_fin {q b : ℚ} (hb : b ≠ 0) :
    ((PFloat.fin q).div (.fin b)).mul (.fin 100) = .fin (q / b * 100) := by
  simp [PFloat.div, PFloat.mul, hb]

theorem keptPairs_mem {mzs intens : List PFloat} {b minRel : ℚ}
    {p : PFloat × PFloat} (hbase : npMax intens = .fin b) (hb : 0 < b)
    (hp : p ∈ keptPairs mzs intens (.fin b) minRel) :
    p.1 ∈ mzs ∧ ∃ r, p.2 = .fin r ∧ minRel ≤ r := by
  unfold keptPairs at hp
  rw [List.mem_filter] at hp
  obtain ⟨hz, hge⟩ := hp
  obtain ⟨p1, p2⟩ := p
  obtain ⟨hm, hrel⟩ := List.of_mem_zip hz
  refine ⟨hm, ?_⟩
  unfold relArray at hrel
  rw [List.mem_map] at hrel
  obtain ⟨i, hi, heq⟩ := hrel
  rcases npMax_fin_bound hbase i hi with rfl | ⟨q, rfl, hqb⟩
  · rw [rel_of_ninf hb] at heq
    rw [← heq] at hge
    simp [PFloat.geQ] at hge
  · rw [rel_of_fin (ne_of_gt hb)] at heq
    rw [← heq] at hge
    rw [geQ_fin_iff] at hge
    exact ⟨q / b * 100, heq.symm, hge⟩

theorem keptPairs_nonempty_lengths {mzs intens : List PFloat} {base : PFloat}
    {minRel : ℚ} (hk : keptPairs mzs intens base minRel ≠ []) :
    mzs ≠ [] ∧ intens ≠ [] := by
  constructor <;> intro h <;> subst h <;> apply hk
  · rfl
  · simp [keptPairs, relArray]

theorem select_fragments_eq_join {mzs intens : List PFloat} {topN : Nat}
    {minRel b : ℚ} (hlen : mzs.length = intens.length)
    (hbase : npMax intens = .fin b) (hb : 0 < b)
    (hkept : keptPairs mzs intens (.fin b) minRel ≠ []) :
    select_fragments mzs intens topN minRel =
      joinSep ';' (((sortedKept mzs intens b minRel).take topN).map
        (fun p => fragToken p 4 1)) := by
  obtain ⟨hm, hi⟩ := keptPairs_nonempty_lengths hkept
  unfold select_fragments
  rw [if_neg]
  · simp only [hbase]
    rw [if_neg (not_le.mpr hb), if_neg hkept]
  · push_neg
    refine ⟨?_, ?_, hlen⟩
    · simpa using hm
    · simpa using hi

theorem select_fragments_degenerate {mzs intens : List PFloat} {topN : Nat}
    {minRel : ℚ}
    (h : mzs = [] ∨ intens = [] ∨ mzs.length ≠ intens.length ∨
      (npMax intens).isFinite = false ∨ ∃ b, npMax intens = .fin b ∧ b ≤ 0) :
    select_fragments mzs intens topN minRel = [] := by
  unfold select_fragments
  by_cases hlen : mzs.length = 0 ∨ intens.length = 0 ∨ mzs.length ≠ intens.length
  · rw [if_pos hlen]
  · rw [if_neg hlen]
    rcases h with h | h | h | h | ⟨b, hb, hble⟩
    · exact absurd (Or.inl (by simp [h])) hlen
    · exact absurd (Or.inr (Or.inl (by simp [h]))) hlen
    · exact absurd (Or.inr (Or.inr h)) hlen
    · rcases hnm : npMax intens with _ | _ | _ | b
      · simp only [hnm]
      · simp only [hnm]
      · simp only [hnm]
      · rw [hnm] at h
        simp [PFloat.isFinite] at h
    · simp only [hb]
      rw [if_pos hble]

theorem digitVal_digitChar {n : Nat} (h : n < 10) :
    digitVal (digitChar n) = n := by
  interval_cases n <;> rfl

theorem isDigit_digitChar (n : Nat) : (digitChar n).isDigit = true := by
  unfold digitChar
  split <;> rfl

theorem natDigsF_fuel : ∀ f1 f2 n : Nat, n < f1 → n < f2 →
    natDigsF f1 n = natDigsF f2 n := by
  intro f1
  induction f1 with
  | zero => intro f2 n h1 _; omega
  | succ f ih =>
    intro f2 n h1 h2
    cases f2 with
    | zero => omega
    | succ g =>
      simp only [natDigsF]
      by_cases h10 : n < 10
      · simp [h10]
      · rw [if_neg h10, if_neg h10, ih g (n / 10) (by omega) (by omega)]

theorem natDigs_eq (n : Nat) :
    natDigs n =
      if n < 10 then [digitChar n]
      else natDigs (n / 10) ++ [digitChar (n % 10)] := by
  by_cases h : n < 10
  · rw [if_pos h]
    unfold natDigs
    rw [natDigsF, if_pos h]
  · rw [if_neg h]
    unfold natDigs
    conv_lhs => rw [natDigsF]
    rw [if_neg h]
    rw [natDigsF_fuel n (n / 10 + 1) (n / 10) (by omega) (by omega)]

theorem natDigs_ne_nil (n : Nat) : natDigs n ≠ [] := by
  rw [natDigs_eq]
  split <;> simp

theorem natDigs_digits (n : Nat) : ∀ c ∈ natDigs n, c.isDigit = true := by
  induction n using Nat.strong_induction_on with
  | _ n ih =>
    rw [natDigs_eq]
    by_cases h : n < 10
    · rw [if_pos h]
      intro c hc
      rw [List.mem_singleton] at hc
      subst hc
      exact isDigit_digitChar n
    · rw [if_neg h]
      intro c hc
      rcases List.mem_append.mp hc with hc | hc
      · exact ih (n / 10) (by omega) c hc
      · rw [List.mem_singleton] at hc
        subst hc
        exact isDigit_digitChar _

theorem digsToNat_foldl (l : List Char) :
    ∀ a : Nat, l.foldl (fun x c => 10 * x + digitVal c) a =
      a * 10 ^ l.length + digsToNat l := by
  induction l with
  | nil => intro a; simp [digsToNat]
  | cons c cs ih =>
    intro a
    rw [List.foldl_cons, ih]
    have h2 : digsToNat (c :: cs) =
        (10 * 0 + digitVal c) * 10 ^ cs.length + digsToNat cs := by
      show List.foldl (fun x c => 10 * x + digitVal c) (10 * 0 + digitVal c) cs = _
      rw [ih]
    rw [h2, List.length_cons]
    ring

theorem digsToNat_append_digit (l : List Char) (c : Char) :
    digsToNat (l ++ [c]) = 10 * digsToNat l + digitVal c := by
  unfold digsToNat
  rw [List.foldl_append]
  simp only [List.foldl_cons, List.foldl_nil]

theorem digsToNat_natDigs (n : Nat) : digsToNat (natDigs n) = n := by
  induction n using Nat.strong_induction_on with
  | _ n ih =>
    rw [natDigs_eq]
    by_cases h : n < 10
    · rw [if_pos h]
      show 10 * 0 + digitVal (digitChar n) = n
      rw [digitVal_digitChar h]
      omega
    · rw [if_neg h, digsToNat_append_digit, ih (n / 10) (by omega),
        digitVal_digitChar (Nat.mod_lt _ (by omega))]
      omega

theorem natDigs_length_le : ∀ k n : Nat, 1 ≤ k → n < 10 ^ k →
    (natDigs n).length ≤ k := by
  intro k
  induction k with
  | zero => omega
  | succ k ih =>
    intro n _ h
    rw [natDigs_eq]
    by_cases h10 : n < 10
    · rw [if_pos h10]
      simp
    · rw [if_neg h10, List.length_append, List.length_singleton]
      have hk : 1 ≤ k := by
        by_contra hk0
        have : k = 0 := by omega
        subst this
        simp at h
        omega
      have hdiv : n / 10 < 10 ^ k := by
        rw [Nat.div_lt_iff_lt_mul (by norm_num)]
        calc n < 10 ^ (k + 1) := h
        _ = 10 ^ k * 10 := by rw [pow_succ]
      have := ih (n / 10) hk hdiv
      omega

theorem digsToNat_replicate_zero (k : Nat) (l : List Char) :
    digsToNat (List.replicate k '0' ++ l) = digsToNat l := by
  induction k with
  | zero => rfl
  | succ k ih =>
    rw [List.replicate_succ, List.cons_append]
    exact ih

theorem padLeft0_length {k : Nat} {l : List Char} (h : l.length ≤ k) :
    (padLeft0 k l).length = k := by
  unfold padLeft0
  rw [List.length_append, List.length_replicate]
  omega

theorem padLeft0_digits {k : Nat} {l : List Char}
    (h : ∀ c ∈ l, c.isDigit = true) :
    ∀ c ∈ padLeft0 k l, c.isDigit = true := by
  intro c hc
  rcases List.mem_append.mp hc with hc | hc
  · rw [List.eq_of_mem_replicate hc]
    rfl
  · exact h c hc

theorem digsToNat_padLeft0 (k : Nat) (l : List Char) :
    digsToNat (padLeft0 k l) = digsToNat l :=
  digsToNat_replicate_zero _ _

theorem isDigit_ne_colon {c : Char} (h : c.isDigit = true) : c ≠ ':' := by
  rintro rfl; exact absurd h (by decide)

theorem isDigit_ne_semi {c : Char} (h : c.isDigit = true) : c ≠ ';' := by
  rintro rfl; exact absurd h (by decide)

theorem isDigit_ne_pct {c : Char} (h : c.isDigit = true) : c ≠ '%' := by
  rintro rfl; exact absurd h (by decide)

theorem isDigit_ne_minus {c : Char} (h : c.isDigit = true) : c ≠ '-' := by
  rintro rfl; exact absurd h (by decide)

theorem isDigit_ne_plus {c : Char} (h : c.isDigit = true) : c ≠ '+' := by
  rintro rfl; exact absurd h (by decide)

theorem isDigit_not_ws {c : Char} (h : c.isDigit = true) : isWs c = false := by
  by_contra hw
  rw [Bool.not_eq_false] at hw
  unfold isWs at hw
  simp only [Bool.or_eq_true, beq_iff_eq] at hw
  rcases hw with ((((h1 | h1) | h1) | h1) | h1) | h1 <;> subst h1 <;>
    exact absurd h (by decide)

theorem takeWhile_append_all {p : Char → Bool} {l : Str} (r : Str)
    (h : ∀ c ∈ l, p c = true) :
    (l ++ r).takeWhile p = l ++ r.takeWhile p := by
  induction l with
  | nil => simp
  | cons c cs ih =>
    rw [List.cons_append, List.takeWhile_cons, if_pos (h c (by simp)),
      ih (fun x hx => h x (by simp [hx]))]
    rfl

theorem dropWhile_append_all {p : Char → Bool} {l : Str} (r : Str)
    (h : ∀ c ∈ l, p c = true) :
    (l ++ r).dropWhile p = r.dropWhile p := by
  induction l with
  | nil => simp
  | cons c cs ih =>
    rw [List.cons_append, List.dropWhile_cons, if_pos (h c (by simp))]
    exact ih (fun x hx => h x (by simp [hx]))

theorem takeWhile_all {p : Char → Bool} {l : Str}
    (h : ∀ c ∈ l, p c = true) : l.takeWhile p = l := by
  have h2 := takeWhile_append_all (l := l) [] h
  simpa using h2

theorem dropWhile_all {p : Char → Bool} {l : Str}
    (h : ∀ c ∈ l, p c = true) : l.dropWhile p = [] := by
  have h2 := dropWhile_append_all (l := l) [] h
  simpa using h2

theorem dropWhile_neg_self {p : Char → Bool} {l : Str}
    (h : ∀ c ∈ l, p c = false) : l.dropWhile p = l := by
  cases l with
  | nil => rfl
  | cons c cs => rw [List.dropWhile_cons, if_neg (by simp [h c (by simp)])]

theorem stripStr_eq_self {l : Str} (h : ∀ c ∈ l, isWs c = false) :
    stripStr l = l := by
  unfold stripStr
  rw [dropWhile_neg_self h,
    dropWhile_neg_self (fun c hc => h c (List.mem_reverse.mp hc)),
    List.reverse_reverse]

theorem stripZeros_spec : ∀ (d : Nat) (m : ℤ),
    (stripZeros m d).2 ≤ d ∧
      (stripZeros m d).1 * 10 ^ (d - (stripZeros m d).2) = m ∧
      (1 ≤ d → 1 ≤ (stripZeros m d).2) := by
  intro d
  induction d using Nat.strong_induction_on with
  | _ d ih =>
    match d with
    | 0 => intro m; simp [stripZeros]
    | 1 => intro m; simp [stripZeros]
    | (e + 2) =>
      intro m
      by_cases h : m % 10 = 0
      · have heq : stripZeros m (e + 2) = stripZeros (m / 10) (e + 1) := by
          rw [stripZeros, if_pos h]
        rw [heq]
        obtain ⟨h1, h2, h3⟩ := ih (e + 1) (by omega) (m / 10)
        refine ⟨by omega, ?_, fun _ => h3 (by omega)⟩
        have hs : (e + 2) - (stripZeros (m / 10) (e + 1)).2 =
            ((e + 1) - (stripZeros (m / 10) (e + 1)).2) + 1 := by omega
        rw [hs, pow_succ, ← mul_assoc, h2]
        omega
      · have heq : stripZeros m (e + 2) = (m, e + 2) := by
          rw [stripZeros, if_neg h]
        rw [heq]
        simp

theorem stripZeros_sign (d : Nat) (m : ℤ) :
    (stripZeros m d).1 < 0 ↔ m < 0 := by
  obtain ⟨h1, h2, h3⟩ := stripZeros_spec d m
  have hp : (0 : ℤ) < 10 ^ (d - (stripZeros m d).2) := by positivity
  constructor
  · intro h
    rw [← h2]
    exact mul_neg_of_neg_of_pos h hp
  · intro h
    by_contra hc
    push_neg at hc
    rw [← h2] at h
    nlinarith

theorem parseUnsigned_digits_dot {ds fs : List Char}
    (hds : ∀ c ∈ ds, c.isDigit = true) (hfs : ∀ c ∈ fs, c.isDigit = true)
    (hne : ds ≠ []) :
    parseUnsigned (ds ++ '.' :: fs) =
      some ((digsToNat ds : ℚ) + (digsToNat fs : ℚ) / 10 ^ fs.length) := by
  have hdsE : ds.isEmpty = false := by
    rw [Bool.eq_false_iff]
    intro hE
    exact hne (List.isEmpty_iff.mp hE)
  simp only [parseUnsigned]
  rw [takeWhile_append_all _ hds, dropWhile_append_all _ hds,
    List.takeWhile_cons, List.dropWhile_cons]
  rw [if_neg (by decide : ¬(('.').isDigit = true))]
  rw [if_neg (by decide : ¬(('.').isDigit = true))]
  simp only [List.append_nil, List.isEmpty_cons, List.head?_cons,
    List.tail_cons]
  rw [takeWhile_all hfs, dropWhile_all hfs]
  rw [if_neg (by simp)]
  rw [if_pos trivial, if_pos ⟨rfl, Or.inl hdsE⟩]

theorem floatRepr_digits_core {a : Nat} {d1 : Nat} (hd1 : 1 ≤ d1) :
    parseUnsigned
        (natDigs (a / 10 ^ d1) ++ '.' :: padLeft0 d1 (natDigs (a % 10 ^ d1))) =
      some ((a : ℚ) / 10 ^ d1) := by
  rw [parseUnsigned_digits_dot (natDigs_digits _)
    (padLeft0_digits (natDigs_digits _)) (natDigs_ne_nil _)]
  congr 1
  rw [digsToNat_natDigs, digsToNat_padLeft0, digsToNat_natDigs,
    padLeft0_length (natDigs_length_le d1 _ hd1
      (Nat.mod_lt _ (Nat.pow_pos (by norm_num))))]
  have h10 : ((10 : ℚ) ^ d1) ≠ 0 := by positivity
  field_simp
  norm_cast
  rw [mul_comm]
  exact Nat.div_add_mod a (10 ^ d1)

theorem pyFloat_floatRepr (m : ℤ) (d : Nat) (hd : 1 ≤ d) :
    pyFloatOfString (floatRepr m d) = some ((m : ℚ) / 10 ^ d) := by
  obtain ⟨hle, hval, hone⟩ := stripZeros_spec d m
  have hsign := stripZeros_sign d m
  rcases hsz : stripZeros m d with ⟨m1, d1⟩
  rw [hsz] at hle hval hone hsign
  simp only at hle hval hone hsign
  have hd1 : 1 ≤ d1 := hone hd
  have hd1ne : ¬(d1 = 0) := by omega
  have hQ : ((m1 : ℚ)) / 10 ^ d1 = (m : ℚ) / 10 ^ d := by
    have hcast : ((m1 : ℚ)) * 10 ^ (d - d1) = (m : ℚ) := by
      exact_mod_cast congrArg (fun z : ℤ => (z : ℚ)) hval
    have hsplit : (10 : ℚ) ^ d = 10 ^ (d - d1) * 10 ^ d1 := by
      rw [← pow_add]
      congr 1
      omega
    rw [← hcast, hsplit]
    have h1 : ((10 : ℚ) ^ d1) ≠ 0 := by positivity
    have h2 : ((10 : ℚ) ^ (d - d1)) ≠ 0 := by positivity
    field_simp
    ring
  unfold floatRepr
  rw [hsz]
  simp only [if_neg hd1ne]
  have hchars : ∀ c ∈ natDigs (m1.natAbs / 10 ^ d1) ++
      '.' :: padLeft0 d1 (natDigs (m1.natAbs % 10 ^ d1)), isWs c = false := by
    intro c hc
    rcases List.mem_append.mp hc with hc | hc
    · exact isDigit_not_ws (natDigs_digits _ c hc)
    · rcases List.mem_cons.mp hc with rfl | hc
      · rfl
      · exact isDigit_not_ws (padLeft0_digits (natDigs_digits _) c hc)
  obtain ⟨c0, cs0, hnd⟩ := List.exists_cons_of_ne_nil
    (natDigs_ne_nil (m1.natAbs / 10 ^ d1))
  have hc0 : c0.isDigit = true := natDigs_digits _ c0 (by rw [hnd]; simp)
  by_cases hneg : m1 < 0
  · rw [if_pos hneg]
    simp only [pyFloatOfString]
    rw [stripStr_eq_self]
    · simp only [List.cons_append]
      rw [if_pos trivial, List.nil_append]
      rw [floatRepr_digits_core hd1]
      show some (-((m1.natAbs : ℚ) / 10 ^ d1)) = some ((m : ℚ) / 10 ^ d)
      have ha : ((m1.natAbs : ℚ)) = -(m1 : ℚ) := by
        have habs : |m1| = -m1 := abs_of_neg hneg
        rw [Int.cast_natAbs]
        exact_mod_cast habs
      rw [ha, ← hQ]
      congr 1
      ring
    · intro c hc
      rcases List.mem_cons.mp hc with rfl | hc
      · rfl
      · exact hchars c hc
  · rw [if_neg hneg]
    simp only [List.nil_append, pyFloatOfString]
    rw [stripStr_eq_self hchars, hnd]
    simp only [List.cons_append]
    rw [if_neg (isDigit_ne_minus hc0), if_neg (isDigit_ne_plus hc0),
      ← List.cons_append, ← hnd, floatRepr_digits_core hd1]
    have ha : ((m1.natAbs : ℚ)) = (m1 : ℚ) := by
      have habs : |m1| = m1 := abs_of_nonneg (not_lt.mp hneg)
      rw [Int.cast_natAbs]
      exact_mod_cast habs
    rw [ha, hQ]

theorem floatRepr_chars {m : ℤ} {d : Nat} :
    ∀ c ∈ floatRepr m d, c.isDigit = true ∨ c = '.' ∨ c = '-' := by
  intro c hc
  unfold floatRepr at hc
  by_cases h0 : (stripZeros m d).2 = 0
  · rw [if_pos h0] at hc
    rcases List.mem_append.mp hc with hc | hc
    · by_cases hneg : (stripZeros m d).1 < 0
      · rw [if_pos hneg] at hc
        rcases List.mem_cons.mp hc with rfl | hc
        · exact Or.inr (Or.inr rfl)
        · exact Or.inl (natDigs_digits _ c hc)
      · rw [if_neg hneg] at hc
        exact Or.inl (natDigs_digits _ c hc)
    · rcases List.mem_cons.mp hc with rfl | hc
      · exact Or.inr (Or.inl rfl)
      · rcases List.mem_cons.mp hc with rfl | hc
        · exact Or.inl (by decide)
        · simp at hc
  · rw [if_neg h0] at hc
    rcases List.mem_append.mp hc with hc | hc
    · rcases List.mem_append.mp hc with hc | hc
      · by_cases hneg : (stripZeros m d).1 < 0
        · rw [if_pos hneg] at hc
          rcases List.mem_cons.mp hc with rfl | hc
          · exact Or.inr (Or.inr rfl)
          · simp at hc
        · rw [if_neg hneg] at hc
          simp at hc
      · exact Or.inl (natDigs_digits _ c hc)
    · rcases List.mem_cons.mp hc with rfl | hc
      · exact Or.inr (Or.inl rfl)
      · exact Or.inl (padLeft0_digits (natDigs_digits _) c hc)

theorem floatRepr_char_props {m : ℤ} {d : Nat} :
    ∀ c ∈ floatRepr m d, c ≠ ';' ∧ c ≠ ':' ∧ c ≠ '%' ∧ isWs c = false := by
  intro c hc
  rcases floatRepr_chars c hc with h | h | h
  · exact ⟨isDigit_ne_semi h, isDigit_ne_colon h, isDigit_ne_pct h,
      isDigit_not_ws h⟩
  · subst h
    exact ⟨by decide, by decide, by decide, rfl⟩
  · subst h
    exact ⟨by decide, by decide, by decide, rfl⟩

theorem fmtRound_char_props {x : PFloat} {d : Nat} :
    ∀ c ∈ fmtRound x d, c ≠ ';' ∧ isWs c = false := by
  cases x with
  | fin q =>
    intro c hc
    obtain ⟨h1, _, _, h4⟩ := floatRepr_char_props c hc
    exact ⟨h1, h4⟩
  | nan =>
    intro c hc
    have he : fmtRound PFloat.nan d = ['n', 'a', 'n'] := rfl
    rw [he] at hc
    simp only [List.mem_cons, List.not_mem_nil, or_false] at hc
    rcases hc with rfl | rfl | rfl <;> exact ⟨by decide, by decide⟩
  | inf =>
    intro c hc
    have he : fmtRound PFloat.inf d = ['i', 'n', 'f'] := rfl
    rw [he] at hc
    simp only [List.mem_cons, List.not_mem_nil, or_false] at hc
    rcases hc with rfl | rfl | rfl <;> exact ⟨by decide, by decide⟩
  | ninf =>
    intro c hc
    have he : fmtRound PFloat.ninf d = ['-', 'i', 'n', 'f'] := rfl
    rw [he] at hc
    simp only [List.mem_cons, List.not_mem_nil, or_false] at hc
    rcases hc with rfl | rfl | rfl | rfl <;> exact ⟨by decide, by decide⟩

theorem fragToken_char_props {p : PFloat × PFloat} {d1 d2 : Nat} :
    ∀ c ∈ fragToken p d1 d2, c ≠ ';' ∧ isWs c = false := by
  intro c hc
  unfold fragToken at hc
  rcases List.mem_append.mp hc with hc | hc
  · exact fmtRound_char_props c hc
  · rcases List.mem_cons.mp hc with rfl | hc
    · exact ⟨by decide, rfl⟩
    · exact fmtRound_char_props c hc

theorem fragToken_ne_nil (p : PFloat × PFloat) (d1 d2 : Nat) :
    fragToken p d1 d2 ≠ [] := by
  unfold fragToken
  simp

theorem splitOnCh_ne_nil (sep : Char) (l : Str) : splitOnCh sep l ≠ [] := by
  induction l with
  | nil => simp [splitOnCh]
  | cons c cs ih =>
    obtain ⟨g, gs, heq⟩ := List.exists_cons_of_ne_nil ih
    simp only [splitOnCh, heq]
    split <;> simp

theorem splitOnCh_sepfree {sep : Char} {t : Str} (h : ∀ c ∈ t, c ≠ sep) :
    splitOnCh sep t = [t] := by
  induction t with
  | nil => rfl
  | cons c cs ih =>
    have h2 := ih (fun x hx => h x (by simp [hx]))
    simp only [splitOnCh, h2]
    rw [if_neg (h c (by simp))]

theorem splitOnCh_append {sep : Char} {t rest : Str} (h : ∀ c ∈ t, c ≠ sep) :
    splitOnCh sep (t ++ sep :: rest) = t :: splitOnCh sep rest := by
  induction t with
  | nil =>
    obtain ⟨g, gs, heq⟩ := List.exists_cons_of_ne_nil (splitOnCh_ne_nil sep rest)
    rw [List.nil_append]
    simp only [splitOnCh, heq]
    rw [if_pos trivial]
  | cons c cs ih =>
    have h2 := ih (fun x hx => h x (by simp [hx]))
    rw [List.cons_append]
    simp only [splitOnCh, h2]
    rw [if_neg (h c (by simp))]

theorem splitOnCh_joinSep {sep : Char} : ∀ (ts : List Str), ts ≠ [] →
    (∀ t ∈ ts, ∀ c ∈ t, c ≠ sep) → splitOnCh sep (joinSep sep ts) = ts := by
  intro ts
  induction ts with
  | nil => intro h; exact absurd rfl h
  | cons t ts2 ih =>
    intro _ hall
    cases ts2 with
    | nil => exact splitOnCh_sepfree (hall t (by simp))
    | cons t2 ts3 =>
      rw [joinSep]
      rw [splitOnCh_append (hall t (by simp))]
      rw [ih (List.cons_ne_nil _ _) (fun u hu c hc => hall u (by simp [hu]) c hc)]
      exact List.cons_ne_nil _ _

theorem tokenMzRel_fragToken {p : PFloat × PFloat} {qm qr : ℚ}
    (h1 : p.1 = .fin qm) (h2 : p.2 = .fin qr) :
    tokenMzRel (fragToken p 4 1) =
      (some (pyRound qm 4), some (pyRound qr 1)) := by
  have htok : fragToken p 4 1 =
      floatRepr (rhe (qm * 10 ^ 4)) 4 ++ ':' :: floatRepr (rhe (qr * 10 ^ 1)) 1 := by
    unfold fragToken fmtRound
    rw [h1, h2]
  rw [htok]
  have hws : ∀ c ∈ floatRepr (rhe (qm * 10 ^ 4)) 4 ++
      ':' :: floatRepr (rhe (qr * 10 ^ 1)) 1, isWs c = false := by
    intro c hc
    rcases List.mem_append.mp hc with hc | hc
    · exact (floatRepr_char_props c hc).2.2.2
    · rcases List.mem_cons.mp hc with rfl | hc
      · rfl
      · exact (floatRepr_char_props c hc).2.2.2
  have hmzT : ∀ c ∈ floatRepr (rhe (qm * 10 ^ 4)) 4, (c != ':') = true := by
    intro c hc
    exact bne_iff_ne.mpr (floatRepr_char_props c hc).2.1
  have hpct : ∀ c ∈ floatRepr (rhe (qr * 10 ^ 1)) 1, (c != '%') = true := by
    intro c hc
    exact bne_iff_ne.mpr (floatRepr_char_props c hc).2.2.1
  simp only [tokenMzRel]
  rw [stripStr_eq_self hws]
  rw [if_neg (by simp)]
  rw [if_neg (by simp)]
  rw [takeWhile_append_all _ hmzT, dropWhile_append_all _ hmzT,
    List.takeWhile_cons, List.dropWhile_cons]
  rw [if_neg (by decide : ¬((':' != ':') = true))]
  rw [if_neg (by decide : ¬((':' != ':') = true))]
  rw [List.append_nil, List.tail_cons]
  rw [List.filter_eq_self.mpr hpct]
  rw [pyFloat_floatRepr _ 4 (by norm_num), pyFloat_floatRepr _ 1 (by norm_num)]
  rfl

theorem parse_fold_pairs :
    ∀ (ps : List (PFloat × PFloat)) (acc : List ℚ × List ℚ),
      (∀ p ∈ ps, (∃ qm, p.1 = .fin qm) ∧ ∃ qr, p.2 = .fin qr) →
      ((ps.map (fun p => fragToken p 4 1)).foldl
        (fun acc part =>
          match tokenMzRel part with
          | (some a, some b) => (acc.1 ++ [a], acc.2 ++ [b])
          | (some a, none) => (acc.1 ++ [a], acc.2)
          | _ => acc) acc) =
        (acc.1 ++ ps.map (fun p => pyRound (pfVal p.1) 4),
          acc.2 ++ ps.map (fun p => pyRound (pfVal p.2) 1)) := by
  intro ps
  induction ps with
  | nil => intro acc _; simp
  | cons p ps ih =>
    intro acc hall
    obtain ⟨⟨qm, hm⟩, qr, hr⟩ := hall p (by simp)
    rw [List.map_cons, List.foldl_cons, tokenMzRel_fragToken hm hr,
      ih _ (fun u hu => hall u (by simp [hu]))]
    rw [List.map_cons, List.map_cons, hm, hr]
    simp [pfVal]

theorem parse_select {mzs intens : List PFloat} {topN : Nat} {minRel b : ℚ}
    (hlen : mzs.length = intens.length) (hbase : npMax intens = .fin b)
    (hb : 0 < b) (hkept : keptPairs mzs intens (.fin b) minRel ≠ [])
    (hmz : ∀ x ∈ mzs, x.isFinite = true) :
    _parse_frag_string (select_fragments mzs intens topN minRel) =
      (((sortedKept mzs intens b minRel).take topN).map
          (fun p => pyRound (pfVal p.1) 4),
        ((sortedKept mzs intens b minRel).take topN).map
          (fun p => pyRound (pfVal p.2) 1)) := by
  rw [select_fragments_eq_join hlen hbase hb hkept]
  have hmem : ∀ p ∈ (sortedKept mzs intens b minRel).take topN,
      (∃ qm, p.1 = .fin qm) ∧ ∃ qr, p.2 = .fin qr := by
    intro p hp
    have hp2 : p ∈ sortedKept mzs intens b minRel := List.mem_of_mem_take hp
    rw [sortedKept, List.mem_insertionSort] at hp2
    obtain ⟨hm1, r, hr, _⟩ := keptPairs_mem hbase hb hp2
    exact ⟨isFinite_iff.mp (hmz _ hm1), r, hr⟩
  cases hf : (sortedKept mzs intens b minRel).take topN with
  | nil => simp [joinSep, _parse_frag_string]
  | cons p0 rest =>
    rw [hf] at hmem
    have hall : ∀ t ∈ ((p0 :: rest).map (fun p => fragToken p 4 1)),
        ∀ c ∈ t, c ≠ ';' := by
      intro t ht c hc
      rw [List.mem_map] at ht
      obtain ⟨p, _, rfl⟩ := ht
      exact (fragToken_char_props c hc).1
    have hne : joinSep ';' ((p0 :: rest).map (fun p => fragToken p 4 1)) ≠ [] := by
      cases rest with
      | nil => simpa [joinSep] using fragToken_ne_nil p0 4 1
      | cons p1 r2 => simp [joinSep, List.map_cons]
    have hE : (joinSep ';' ((p0 :: rest).map (fun p => fragToken p 4 1))).isEmpty
        = false := by
      rw [Bool.eq_false_iff]
      intro hEE
      exact hne (List.isEmpty_iff.mp hEE)
    unfold _parse_frag_string
    rw [if_neg (by simp only [List.isEmpty_iff]; exact hne)]
    rw [splitOnCh_joinSep _ (by simp) hall]
    rw [parse_fold_pairs (p0 :: rest) ([], []) hmem]
    simp

theorem ratFloor_eq (q : ℚ) : Rat.floor q = ⌊q⌋ := by
  rw [Rat.floor_def', Rat.floor_def]

theorem rhe_cases (q : ℚ) : rhe q = Rat.floor q ∨ rhe q = Rat.floor q + 1 := by
  unfold rhe
  split_ifs with h1 h2 h3
  · exact Or.inl rfl
  · exact Or.inr rfl
  · exact Or.inl rfl
  · exact Or.inr rfl

theorem rhe_mono {q1 q2 : ℚ} (h : q1 ≤ q2) : rhe q1 ≤ rhe q2 := by
  have hf : Rat.floor q1 ≤ Rat.floor q2 := by
    rw [ratFloor_eq, ratFloor_eq]
    exact Int.floor_mono h
  rcases lt_or_eq_of_le hf with hlt | heq
  · have h1 : rhe q1 ≤ Rat.floor q1 + 1 := by
      rcases rhe_cases q1 with h2 | h2 <;> omega
    have h2 : Rat.floor q2 ≤ rhe q2 := by
      rcases rhe_cases q2 with h3 | h3 <;> omega
    omega
  · have hC : ((Rat.floor q1 : ℤ) : ℚ) = ((Rat.floor q2 : ℤ) : ℚ) := by
      exact_mod_cast congrArg (fun z : ℤ => (z : ℚ)) heq
    have hr : q1 - (Rat.floor q1 : ℚ) ≤ q2 - (Rat.floor q2 : ℚ) := by
      rw [← hC]
      linarith
    unfold rhe
    rw [← heq]
    split_ifs <;> first | omega | (exfalso; linarith)

theorem pyRound_mono {q1 q2 : ℚ} (d : Nat) (h : q1 ≤ q2) :
    pyRound q1 d ≤ pyRound q2 d := by
  unfold pyRound
  have h1 : q1 * 10 ^ d ≤ q2 * 10 ^ d :=
    mul_le_mul_of_nonneg_right h (by positivity)
  have h2 := rhe_mono h1
  have h3 : ((rhe (q1 * 10 ^ d) : ℤ) : ℚ) ≤ ((rhe (q2 * 10 ^ d) : ℤ) : ℚ) := by
    exact_mod_cast h2
  have h4 : (0 : ℚ) < 10 ^ d := by positivity
  exact (div_le_div_iff_of_pos_right h4).mpr h3

theorem select_fragments_kept_nil {mzs intens : List PFloat} {topN : Nat}
    {minRel b : ℚ} (hbase : npMax intens = .fin b)
    (hk : keptPairs mzs intens (.fin b) minRel = []) :
    select_fragments mzs intens topN minRel = [] := by
  unfold select_fragments
  by_cases hlen0 : mzs.length = 0 ∨ intens.length = 0 ∨ mzs.length ≠ intens.length
  · rw [if_pos hlen0]
  · rw [if_neg hlen0]
    simp only [hbase]
    by_cases hb0 : b ≤ 0
    · rw [if_pos hb0]
    · rw [if_neg hb0, if_pos hk]

theorem load_foldl_skip :
    ∀ (entries : List (Str × List Spectrum)) (acc : List (Str × List Spectrum)),
      (∀ e ∈ entries, isMgfName e.1 = false) →
      entries.foldl (fun acc e =>
        if isMgfName e.1 then dictSet acc (splitextStem e.1) e.2 else acc) acc
        = acc := by
  intro entries
  induction entries with
  | nil => intro acc _; rfl
  | cons e es ih =>
    intro acc h
    rw [List.foldl_cons, if_neg (by simp [h e (by simp)])]
    exact ih acc (fun x hx => h x (by simp [hx]))

theorem foldl_append_map {α β : Type} (f : α → β) :
    ∀ (l : List α) (acc : List β),
      l.foldl (fun a x => a ++ [f x]) acc = acc ++ l.map f := by
  intro l
  induction l with
  | nil => intro acc; simp
  | cons x xs ih =>
    intro acc
    rw [List.foldl_cons, ih]
    simp

theorem rows_spectra_to_dataframe (m : List (Str × List Spectrum)) (topN : Nat)
    (minRel : ℚ) :
    (spectra_to_dataframe m topN minRel).rows =
      (m.map (fun bs => bs.2.map (mkRow bs.1 topN minRel))).flatten := by
  suffices h : ∀ (mm : List (Str × List Spectrum)) (acc : List SummaryRow),
      mm.foldl (fun acc bs => bs.2.foldl
        (fun acc2 spec => acc2 ++ [mkRow bs.1 topN minRel spec]) acc) acc =
      acc ++ (mm.map (fun bs => bs.2.map (mkRow bs.1 topN minRel))).flatten by
    have h2 := h m []
    unfold spectra_to_dataframe
    simpa using h2
  intro mm
  induction mm with
  | nil => intro acc; simp
  | cons bs ms ih =>
    intro acc
    rw [List.foldl_cons, foldl_append_map, ih]
    simp

theorem spectra_cols (m : List (Str × List Spectrum)) (topN : Nat)
    (minRel : ℚ) :
    (spectra_to_dataframe m topN minRel).cols =
      if (spectra_to_dataframe m topN minRel).rows.isEmpty then []
      else dfCols := rfl

theorem first_param_eq_spec (params : Params) :
    ∀ keys : List Str, _first_param params keys =
      match keys.find? (containsKey params) with
      | none => none
      | some k =>
        match lookupP params k with
        | some (.seq vs) => vs.head?
        | some v => some v
        | none => none := by
  intro keys
  induction keys with
  | nil => rfl
  | cons k ks ih =>
    rw [_first_param, List.find?_cons]
    by_cases hk : containsKey params k
    · obtain ⟨v, hv⟩ := Option.isSome_iff_exists.mp hk
      rw [hv]
      simp only [hk]
      rw [hv]
      cases v <;> rfl
    · have hk2 : containsKey params k = false := by
        rw [Bool.eq_false_iff]
        exact hk
      have hnone : lookupP params k = none := by
        unfold containsKey at hk2
        exact Option.not_isSome_iff_eq_none.mp (by rw [hk2]; simp)
      rw [hnone]
      simp only [hk2]
      exact ih

theorem first_param_scanKeys (params : Params) :
    _first_param params scanKeys = scanRawSpec params := by
  unfold scanRawSpec
  exact first_param_eq_spec params scanKeys

theorem pepmassLoop_eq (params : Params) :
    pepmassLoop params = List.findSome? convParam
      ((params.filter
        (fun kv => kv.1.map Char.toLower = "pepmass".data)).map Prod.snd) := by
  induction params with
  | nil => rfl
  | cons kv rest ih =>
    obtain ⟨k, v⟩ := kv
    rw [pepmassLoop]
    by_cases hk : k.map Char.toLower = "pepmass".data
    · rw [if_pos hk, List.filter_cons_of_pos (by simpa using hk),
        List.map_cons, List.findSome?_cons]
      cases hc : convParam v
      · simp only []
        exact ih
      · simp only []
    · rw [if_neg hk, List.filter_cons_of_neg (by simpa using hk)]
      exact ih

theorem altLoop_eq (params : Params) :
    ∀ ks : List Str, altLoop params ks =
      List.findSome? convParam (ks.filterMap (lookupP params)) := by
  intro ks
  induction ks with
  | nil => rfl
  | cons k ks2 ih =>
    rw [altLoop]
    cases hv : lookupP params k with
    | none =>
      rw [List.filterMap_cons]
      simp only [hv]
      exact ih
    | some v =>
      rw [List.filterMap_cons]
      simp only [hv, List.findSome?_cons]
      cases hc : convParam v
      · simp only []
        exact ih
      · simp only []

/-- C1 counterexample: for a non-existent directory path the Loader does not
return an empty mapping — the directory listing raises `FileNotFoundError`,
which `load_mgf_spectra` does not catch, so the call errors instead of
returning `Except.ok []`. -/
theorem C1_counterexample :
    load_mgf_spectra none = Except.error fnfMsg ∧
      load_mgf_spectra none ≠ Except.ok [] := by
  constructor
  · rfl
  · intro h
    exact Except.noConfusion h

/-- C1 (amended): for every existing directory in which zero files match the
`.mgf` extension, `load_mgf_spectra` returns an empty mapping and does not
raise; for a non-existent directory path the directory listing raises
`FileNotFoundError`, which propagates. -/
theorem C1_amended (entries : List (Str × List Spectrum))
    (h : ∀ e ∈ entries, isMgfName e.1 = false) :
    load_mgf_spectra (some entries) = Except.ok [] ∧
      load_mgf_spectra none = Except.error fnfMsg := by
  refine ⟨?_, rfl⟩
  have he : load_mgf_spectra (some entries) =
      Except.ok (entries.foldl (fun acc e =>
        if isMgfName e.1 then dictSet acc (splitextStem e.1) e.2 else acc) []) :=
    rfl
  rw [he, load_foldl_skip entries [] h]

/-- C1 witness: a directory holding only `readme.txt` loads to the empty
mapping, and the non-existent path errors. -/
theorem C1_witness :
    load_mgf_spectra (some [("readme.txt".data, [])]) = Except.ok [] ∧
      load_mgf_spectra none = Except.error fnfMsg :=
  C1_amended [("readme.txt".data, [])] (by decide)

/-- C2 counterexample: for an existing directory with no spectra the produced
table has no columns at all, so its columns are not in the claimed
six-column order. -/
theorem C2_counterexample :
    build_table_from_dir (some []) 6 1 =
        Except.ok { cols := [], rows := [] } ∧
      ([] : List Str) ≠ appCols := by
  constructor
  · rfl
  · decide

/-- C2 (amended): for every input whose table has at least one row, the
produced output table has its columns in the order batch, scans,
scan_number, precursor_mass, n_fragments, fragments; a rowless table has no
columns. -/
theorem C2_amended (listing : Option (List (Str × List Spectrum)))
    (topN : Nat) (minRel : ℚ) (df : DF)
    (hok : build_table_from_dir listing topN minRel = Except.ok df)
    (hrows : df.rows ≠ []) : df.cols = appCols := by
  unfold build_table_from_dir at hok
  cases hload : load_mgf_spectra listing with
  | error e =>
    rw [hload] at hok
    exact Except.noConfusion hok
  | ok m =>
    rw [hload] at hok
    simp only [] at hok
    injection hok with heq
    subst heq
    simp only [] at hrows ⊢
    have hc : (spectra_to_dataframe m topN minRel).cols = dfCols := by
      rw [spectra_cols]
      rw [if_neg (by simp only [List.isEmpty_iff]; exact hrows)]
    rw [hc]
    decide

/-- C2 witness: a directory with one `.mgf` file holding one (empty) spectrum
produces a one-row table whose columns are exactly `appCols`. -/
theorem C2_witness :
    build_table_from_dir (some [("s.mgf".data, [⟨[], [], []⟩])]) 6 1 =
        Except.ok (⟨appCols, [⟨"s".data, none, none, none, [], 0⟩]⟩ : DF) ∧
      ((⟨appCols, [⟨"s".data, none, none, none, [], 0⟩]⟩ : DF)).cols =
        appCols := by
  constructor
  · rfl
  · exact C2_amended (some [("s.mgf".data, [⟨[], [], []⟩])]) 6 1 _ rfl
      (by simp)

/-- C3: for equal-length m/z and intensity arrays with a finite positive
maximum intensity and at least one qualifying peak, `select_fragments` sorts
the retained peaks by relative intensity descending with ties broken by m/z
ascending (the sorted list is a permutation of the retained pairs and is
pairwise in that order), truncates to at most `top_n` only after the filter
and sort, and emits the formatted entries joined by `';'` in that sorted
order. -/
theorem C3_theorem {mzs intens : List PFloat} {topN : Nat} {minRel b : ℚ}
    (hlen : mzs.length = intens.length) (hbase : npMax intens = .fin b)
    (hb : 0 < b) (hkept : keptPairs mzs intens (.fin b) minRel ≠ []) :
    (keptPairs mzs intens (.fin b) minRel).Perm
        (sortedKept mzs intens b minRel) ∧
      List.Pairwise RelDescMzAsc (sortedKept mzs intens b minRel) ∧
      select_fragments mzs intens topN minRel =
        joinSep ';' (((sortedKept mzs intens b minRel).take topN).map
          (fun p => fragToken p 4 1)) := by
  refine ⟨(List.perm_insertionSort LexLeP _).symm, ?_,
    select_fragments_eq_join hlen hbase hb hkept⟩
  have hsorted : List.Pairwise LexLeP (sortedKept mzs intens b minRel) :=
    List.sorted_insertionSort LexLeP _
  refine hsorted.imp_of_mem ?_
  intro x y hx hy hxy
  rw [sortedKept, List.mem_insertionSort] at hx hy
  obtain ⟨_, qx, hqx, _⟩ := keptPairs_mem hbase hb hx
  obtain ⟨_, qy, hqy, _⟩ := keptPairs_mem hbase hb hy
  refine ⟨qx, qy, hqx, hqy, ?_⟩
  rcases hxy with ⟨hs, hn⟩ | ⟨he, hm⟩
  · left
    rw [hqx] at hs hn
    rw [hqy] at hs hn
    simp only [PFloat.neg] at hs hn
    rcases hs with hlt | ⟨_, hle⟩
    · simp [pfRank] at hlt
    · have h1 : ¬(-qy ≤ -qx) := fun hc =>
        hn (Or.inr ⟨rfl, by simpa [pfVal] using hc⟩)
      have h2 : -qx ≤ -qy := by simpa [pfVal] using hle
      push_neg at h1
      linarith
  · right
    rw [hqx, hqy] at he
    simp only [PFloat.neg] at he
    have hq : qx = qy := by
      injection he with h3
      linarith
    exact ⟨hq, hm⟩

/-- C3 witness: concrete two-peak spectrum, sorted output checked by applying
the theorem at that input. -/
theorem C3_witness :
    (keptPairs [PFloat.fin 10, PFloat.fin 20] [PFloat.fin 50, PFloat.fin 100]
        (.fin 100) 10).Perm
        (sortedKept [PFloat.fin 10, PFloat.fin 20]
          [PFloat.fin 50, PFloat.fin 100] 100 10) ∧
      List.Pairwise RelDescMzAsc
        (sortedKept [PFloat.fin 10, PFloat.fin 20]
          [PFloat.fin 50, PFloat.fin 100] 100 10) ∧
      select_fragments [PFloat.fin 10, PFloat.fin 20]
          [PFloat.fin 50, PFloat.fin 100] 1 10 =
        joinSep ';' (((sortedKept [PFloat.fin 10, PFloat.fin 20]
            [PFloat.fin 50, PFloat.fin 100] 100 10).take 1).map
          (fun p => fragToken p 4 1)) :=
  C3_theorem (by decide) (by decide) (by norm_num) (by decide)

theorem tokenCount_join (ps : List (PFloat × PFloat)) :
    tokenCount (joinSep ';' (ps.map (fun p => fragToken p 4 1))) = ps.length := by
  cases ps with
  | nil => rfl
  | cons p0 rest =>
    have hall : ∀ t ∈ ((p0 :: rest).map (fun p => fragToken p 4 1)),
        ∀ c ∈ t, c ≠ ';' := by
      intro t ht c hc
      rw [List.mem_map] at ht
      obtain ⟨p, _, rfl⟩ := ht
      exact (fragToken_char_props c hc).1
    have hne : joinSep ';' ((p0 :: rest).map (fun p => fragToken p 4 1)) ≠ [] := by
      cases rest with
      | nil => simpa [joinSep] using fragToken_ne_nil p0 4 1
      | cons p1 r2 => simp [joinSep, List.map_cons]
    unfold tokenCount
    rw [if_neg (by simp only [List.isEmpty_iff]; exact hne)]
    rw [splitOnCh_joinSep _ (by simp) hall, List.length_map]

/-- C4 counterexample: with `min_rel_pct = 1.02` a peak of relative intensity
1.04 is retained but its encoded (rounded) relative intensity is `1.0`,
which is below `min_rel_pct` — the claim that every token's encoded
relative-intensity value is `≥ min_rel_pct` is false. -/
theorem C4_counterexample :
    (1 : ℚ) ∈ (_parse_frag_string (select_fragments
        [PFloat.fin 50, PFloat.fin 60]
        [PFloat.fin (26/25), PFloat.fin 100] 6 (51/50))).2 ∧
      ¬((51 : ℚ) / 50 ≤ 1) := by
  constructor
  · decide
  · decide

/-- C4 (amended): for equal-length arrays of finite values with at least one
positive intensity, the output has at most `top_n` tokens; every token's
encoded relative intensity is `≥ round(min_rel_pct, rel_decimals)` (the
retained peaks' exact relative intensities are `≥ min_rel_pct`, but the
encoded value is rounded half-to-even and may drop below `min_rel_pct`
itself); and the retention boundary is inclusive: a peak whose relative
intensity equals `min_rel_pct` exactly is retained. -/
theorem C4_amended {mzs intens : List PFloat} (topN : Nat) (minRel : ℚ)
    (hlen : mzs.length = intens.length)
    (hfi : ∀ x ∈ intens, x.isFinite = true)
    (hpos : ∃ x ∈ intens, ∃ q, x = PFloat.fin q ∧ 0 < q)
    (hmz : ∀ x ∈ mzs, x.isFinite = true) :
    tokenCount (select_fragments mzs intens topN minRel) ≤ topN ∧
      (∀ r ∈ (_parse_frag_string (select_fragments mzs intens topN minRel)).2,
        pyRound minRel 1 ≤ r) ∧
      ∀ p ∈ mzs.zip (relArray intens (npMax intens)),
        p.2 = PFloat.fin minRel →
        p ∈ keptPairs mzs intens (npMax intens) minRel := by
  obtain ⟨x0, hx0, q0, rfl, hq0⟩ := hpos
  have hne : intens ≠ [] := by
    intro h
    subst h
    simp at hx0
  obtain ⟨b, hbase⟩ := npMax_fin_of_all_finite hfi hne
  have hb : 0 < b := by
    rcases npMax_fin_bound hbase _ hx0 with h | ⟨q, hq, hle⟩
    · exact absurd h (by simp)
    · have hqq : q0 = q := by injection hq
      linarith
  refine ⟨?_, ?_, ?_⟩
  · by_cases hk : keptPairs mzs intens (.fin b) minRel = []
    · rw [select_fragments_kept_nil hbase hk]
      simp [tokenCount]
    · rw [select_fragments_eq_join hlen hbase hb hk, tokenCount_join,
        List.length_take]
      omega
  · by_cases hk : keptPairs mzs intens (.fin b) minRel = []
    · rw [select_fragments_kept_nil hbase hk]
      intro r hr
      simp [_parse_frag_string] at hr
    · rw [parse_select hlen hbase hb hk hmz]
      intro r hr
      simp only [List.mem_map] at hr
      obtain ⟨p, hp, rfl⟩ := hr
      have hp2 : p ∈ sortedKept mzs intens b minRel := List.mem_of_mem_take hp
      rw [sortedKept, List.mem_insertionSort] at hp2
      obtain ⟨_, rq, hrq, hge⟩ := keptPairs_mem hbase hb hp2
      rw [hrq]
      simp only [pfVal]
      exact pyRound_mono 1 hge
  · intro p hp hrel
    unfold keptPairs
    rw [List.mem_filter]
    refine ⟨hp, ?_⟩
    rw [hrel]
    exact geQ_fin_iff.mpr (le_refl _)

/-- C4 witness: concrete single-peak input checked by applying the amended
theorem. -/
theorem C4_witness :
    tokenCount (select_fragments [PFloat.fin 10] [PFloat.fin 5] 3 50) ≤ 3 ∧
      (∀ r ∈ (_parse_frag_string
          (select_fragments [PFloat.fin 10] [PFloat.fin 5] 3 50)).2,
        pyRound 50 1 ≤ r) ∧
      ∀ p ∈ [PFloat.fin 10].zip (relArray [PFloat.fin 5]
          (npMax [PFloat.fin 5])),
        p.2 = PFloat.fin 50 →
        p ∈ keptPairs [PFloat.fin 10] [PFloat.fin 5]
          (npMax [PFloat.fin 5]) 50 :=
  C4_amended 3 50 (by decide) (by decide)
    ⟨PFloat.fin 5, by decide, 5, rfl, by norm_num⟩ (by decide)

/-- C5: a spectrum with empty peak arrays, mismatched lengths, or a
non-finite or non-positive maximum intensity yields the empty fragment
string and a row with `n_fragments = 0` (the row is still emitted); and the
table's rows are exactly one row per spectrum in batch-then-list encounter
order — rows are never dropped. -/
theorem C5_theorem :
    (∀ (batch : Str) (topN : Nat) (minRel : ℚ) (spec : Spectrum),
      DegenerateSpectrum spec →
        (mkRow batch topN minRel spec).fragments = [] ∧
          (mkRow batch topN minRel spec).n_fragments = 0) ∧
      ∀ (m : List (Str × List Spectrum)) (topN : Nat) (minRel : ℚ),
        (spectra_to_dataframe m topN minRel).rows =
          (m.map (fun bs => bs.2.map (mkRow bs.1 topN minRel))).flatten := by
  constructor
  · intro batch topN minRel spec hdeg
    have hfrag : select_fragments spec.mz spec.intensity topN minRel = [] :=
      select_fragments_degenerate hdeg
    constructor
    · simp only [mkRow]
      exact hfrag
    · simp only [mkRow]
      rw [hfrag]
      rfl
  · exact rows_spectra_to_dataframe

/-- C5 witness: a spectrum with empty arrays produces the empty fragment
string and a zero count, by applying the theorem. -/
theorem C5_witness :
    (mkRow "b".data 6 1 ⟨[], [], []⟩).fragments = [] ∧
      (mkRow "b".data 6 1 ⟨[], [], []⟩).n_fragments = 0 :=
  C5_theorem.1 "b".data 6 1 ⟨[], [], []⟩ (Or.inl rfl)

/-- C6 counterexample: for the header `SCANS = "F3:12"` the parsed scan
number is 3 (the first run of decimal digits), not 12 as the claim's example
states. -/
theorem C6_counterexample :
    (extract_scans_fields [("SCANS".data, PVal.str "F3:12".data)]).2 =
        some 3 ∧
      some (3 : ℤ) ≠ some 12 := by
  constructor
  · rfl
  · decide

/-- C6 (amended): scan extraction returns the value of the first key present
in the literal case-sensitive priority list (element 0 when the value is a
sequence), and the parsed scan number is the integer value of the first run
of decimal digits anywhere in the string form of that raw value, absent when
no digits exist or the value is absent; for the header `SCANS = "F3:12"` the
raw value is `"F3:12"` and the scan number is 3. -/
theorem C6_amended :
    (∀ params : Params,
      extract_scans_fields params = extract_scans_fields_spec params) ∧
      extract_scans_fields [("SCANS".data, PVal.str "F3:12".data)] =
        (some (PVal.str "F3:12".data), some 3) := by
  constructor
  · intro params
    unfold extract_scans_fields extract_scans_fields_spec
    rw [first_param_scanKeys params]
    cases scanRawSpec params with
    | none => rfl
    | some v =>
      show (match firstDigitRun (stripStr (pyStr v)) with
        | none => (some v, none)
        | some ds => (some v, some ((digsToNat ds : ℤ)))) =
        (some v, (firstDigitRun (stripStr (pyStr v))).map
          (fun ds => ((digsToNat ds : ℤ))))
      cases firstDigitRun (stripStr (pyStr v)) <;> rfl
  · rfl

/-- C7: precursor extraction first searches header keys case-insensitively
for `pepmass` (in header order), then the alternate spellings in their fixed
order case-sensitively; each found value is coerced (sequence → element 0,
string → first token after comma/whitespace splitting, bare number →
direct float), a conversion failure moves on to the next candidate, and when
no candidate converts the result is absent, never zero. -/
theorem C7_theorem (params : Params) :
    get_precursor_mz params = get_precursor_mz_spec params := by
  unfold get_precursor_mz get_precursor_mz_spec precursorCandidates
  rw [List.findSome?_append, pepmassLoop_eq params, altLoop_eq params altKeys]
  cases List.findSome? convParam
      ((params.filter
        (fun kv => kv.1.map Char.toLower = "pepmass".data)).map Prod.snd) with
  | none => rfl
  | some r => rfl

/-- C8: when a directory holds two files whose names strip to the same batch
stem (both matching the `.mgf` extension case-insensitively), the Loader
maps that stem to exactly the second file's spectra — last write wins, with
no deduplication, warning, or error. -/
theorem C8_theorem {fn1 fn2 : Str} {c1 c2 : List Spectrum}
    (h1 : isMgfName fn1 = true) (h2 : isMgfName fn2 = true)
    (hstem : splitextStem fn1 = splitextStem fn2) :
    load_mgf_spectra (some [(fn1, c1), (fn2, c2)]) =
      Except.ok [(splitextStem fn1, c2)] := by
  have he : load_mgf_spectra (some [(fn1, c1), (fn2, c2)]) =
      Except.ok (dictSet (dictSet [] (splitextStem fn1) c1)
        (splitextStem fn2) c2) := by
    have hstep : [(fn1, c1), (fn2, c2)].foldl
        (fun acc e =>
          if isMgfName e.1 then dictSet acc (splitextStem e.1) e.2 else acc)
        [] = dictSet (dictSet [] (splitextStem fn1) c1) (splitextStem fn2) c2 := by
      rw [List.foldl_cons, if_pos h1, List.foldl_cons, if_pos h2,
        List.foldl_nil]
    exact congrArg Except.ok hstep
  rw [he]
  have hd : dictSet (dictSet [] (splitextStem fn1) c1) (splitextStem fn2) c2 =
      if splitextStem fn1 = splitextStem fn2
      then (splitextStem fn2, c2) :: []
      else (splitextStem fn1, c1) :: dictSet [] (splitextStem fn2) c2 := rfl
  rw [hd, if_pos hstem, hstem]

/-- C8 witness: `a.mgf` then `a.MGF` collide on the stem `a`; the mapping
holds exactly the second file's spectra. -/
theorem C8_witness :
    load_mgf_spectra (some [("a.mgf".data, []),
        ("a.MGF".data, [⟨[], [], []⟩])]) =
      Except.ok [(splitextStem "a.mgf".data, [⟨[], [], []⟩])] :=
  C8_theorem (by decide) (by decide) (by decide)

/-- C9: for spectra passing the guards (equal lengths, finite positive
maximum intensity, at least one qualifying peak, finite m/z values), parsing
the produced fragment string back recovers exactly the kept peaks' m/z
values rounded to `mz_decimals` and their relative intensities rounded to
`rel_decimals`, in the same order and with the same count. -/
theorem C9_theorem {mzs intens : List PFloat} {topN : Nat} {minRel b : ℚ}
    (hlen : mzs.length = intens.length) (hbase : npMax intens = .fin b)
    (hb : 0 < b) (hkept : keptPairs mzs intens (.fin b) minRel ≠ [])
    (hmz : ∀ x ∈ mzs, x.isFinite = true) :
    _parse_frag_string (select_fragments mzs intens topN minRel) =
      (((sortedKept mzs intens b minRel).take topN).map
          (fun p => pyRound (pfVal p.1) 4),
        ((sortedKept mzs intens b minRel).take topN).map
          (fun p => pyRound (pfVal p.2) 1)) :=
  parse_select hlen hbase hb hkept hmz

/-- C9 witness: the specification's end-to-end example spectrum, checked by
applying the theorem. -/
theorem C9_witness :
    _parse_frag_string (select_fragments
        [PFloat.fin 100, PFloat.fin 200, PFloat.fin 300]
        [PFloat.fin 10, PFloat.fin 100, PFloat.fin 50] 2 10) =
      (((sortedKept [PFloat.fin 100, PFloat.fin 200, PFloat.fin 300]
            [PFloat.fin 10, PFloat.fin 100, PFloat.fin 50] 100 10).take 2).map
          (fun p => pyRound (pfVal p.1) 4),
        ((sortedKept [PFloat.fin 100, PFloat.fin 200, PFloat.fin 300]
            [PFloat.fin 10, PFloat.fin 100, PFloat.fin 50] 100 10).take 2).map
          (fun p => pyRound (pfVal p.2) 1)) :=
  C9_theorem (by decide) (by decide) (by norm_num) (by decide) (by decide)

/-- C10: when the first scan-candidate key present holds an empty sequence,
scan extraction returns `none` for both the raw value and the scan number,
without falling back to any later key in the priority list. -/
theorem C10_theorem {params : Params} {k : Str}
    (hfind : scanKeys.find? (containsKey params) = some k)
    (hlook : lookupP params k = some (PVal.seq [])) :
    extract_scans_fields params = (none, none) := by
  unfold extract_scans_fields
  rw [first_param_scanKeys params]
  unfold scanRawSpec
  rw [hfind]
  show (match (match lookupP params k with
      | some (PVal.seq vs) => vs.head?
      | some v => some v
      | none => none) with
    | none => ((none : Option PVal), (none : Option ℤ))
    | some v =>
      match firstDigitRun (stripStr (pyStr v)) with
      | none => (some v, none)
      | some ds => (some v, some ((digsToNat ds : ℤ)))) = (none, none)
  rw [hlook]
  rfl

/-- C10 witness: `SCANS` holds an empty sequence while the later candidate
`scan` holds a usable value; extraction still yields `(none, none)`. -/
theorem C10_witness :
    extract_scans_fields
        [("SCANS".data, PVal.seq []), ("scan".data, PVal.str "42".data)] =
      (none, none) ∧
      lookupP [("SCANS".data, PVal.seq []), ("scan".data, PVal.str "42".data)]
        "scan".data = some (PVal.str "42".data) :=
  ⟨C10_theorem (k := "SCANS".data) rfl rfl, rfl⟩
